import Mathlib

/-!
Verification of the inbound/outbound message pipeline of the `digital_brain`
repository (module `src/digital_brain/channels/`).

Strings from the Python source are modelled as `List Char`; Python `set`s as
`Finset String`; exceptions as `Except`; `async` collaborators as injected
functions returning `Except`.  The plain chunking loop of
`channels/chunking.py` need not terminate for `limit = 0`, so it is embedded
with an explicit fuel argument and an `Option` result (`none` = the Python
loop would not have finished within the given fuel; the callers use fuel
`text.length`, which is proved sufficient whenever `limit ≥ 1`).
-/

namespace DigitalBrain

/-- The backtick character, written via its code point. -/
def btick : Char := Char.ofNat 96

/-- Whitespace as recognised by Python `str.strip` / `str.isspace` for the
ASCII range (space, tab, newline, carriage return, vertical tab, form feed). -/
def isWs (c : Char) : Bool :=
  c = ' ' || c = '\t' || c = '\n' || c = '\r' || c = '\x0b' || c = '\x0c'

/-- Python `str.lstrip()`. -/
def lstrip (s : List Char) : List Char := s.dropWhile isWs

/-- Python `str.rstrip()`. -/
def rstrip (s : List Char) : List Char := (s.reverse.dropWhile isWs).reverse

/-- Python `str.strip()`. -/
def strip (s : List Char) : List Char := lstrip (rstrip s)

/-- Python `s.rfind(sep, 0, endPos)` restricted to found-at-index results:
the largest index `i` with `i + sep.length ≤ endPos` at which `sep` occurs
in `s`, or `none` (Python's `-1`). -/
def rfindBefore (s sep : List Char) (endPos : Nat) : Option Nat :=
  (((List.range (endPos + 1)).filter
    (fun i => decide (i + sep.length ≤ endPos) && sep.isPrefixOf (s.drop i)))).getLast?

/-- chunking.py `_find_break`: last occurrence of `sep` within `limit`
characters, returned as a cut position `idx + sep.length`; occurrences at
index 0 are rejected (`if idx > 0`), as in the source. -/
def _find_break (text : List Char) (limit : Nat) (sep : List Char) : Option Nat :=
  match rfindBefore text sep limit with
  | some idx => if 0 < idx then some (idx + sep.length) else none
  | none => none

/-- The cut position chosen by one iteration of `_chunk_plain`: paragraph
boundary, then line boundary, then space, then a hard cut at `limit`. -/
def chooseCut (remaining : List Char) (limit : Nat) : Nat :=
  match _find_break remaining limit ['\n', '\n'] with
  | some cut => cut
  | none =>
    match _find_break remaining limit ['\n'] with
    | some cut => cut
    | none =>
      match _find_break remaining limit [' '] with
      | some cut => cut
      | none => limit

/-- The `while remaining:` loop of chunking.py `_chunk_plain`, with explicit
fuel.  `none` means the fuel ran out (the Python loop makes no progress when
`limit = 0`, so no fuel suffices there). -/
def chunkPlainGo (limit : Nat) : Nat → List Char → Option (List (List Char))
  | _, [] => some []
  | 0, _ :: _ => none
  | fuel + 1, remaining =>
    if remaining.length ≤ limit then
      some [remaining]
    else
      let cut := chooseCut remaining limit
      (chunkPlainGo limit fuel (lstrip (remaining.drop cut))).map
        (fun rest => rstrip (remaining.take cut) :: rest)

/-- chunking.py `_chunk_plain`, run with fuel `text.length` (each iteration
consumes at least one character when `limit ≥ 1`, so this fuel is enough). -/
def _chunk_plain (text : List Char) (limit : Nat) : Option (List (List Char)) :=
  chunkPlainGo limit text.length text

/-- chunking.py `ChunkMode`. -/
inductive ChunkMode where
  | TEXT
  | MARKDOWN
deriving DecidableEq

/-- Python `text.split(c)` for a single-character separator (keeps empty
pieces; `"".split(c) = [""]`). -/
def splitOnChar (sep : Char) : List Char → List (List Char)
  | [] => [[]]
  | x :: xs =>
    match splitOnChar sep xs with
    | [] => [[]]
    | h :: t => if x = sep then [] :: h :: t else (x :: h) :: t

/-- The regex `^(`-run or ~-run of length ≥ 3)` of chunking.py
(`_CODE_FENCE_RE`), applied at the start of a line or block: returns the
fence character and the (maximal, the regex is greedy) run length. -/
def fenceRun (s : List Char) : Option (Char × Nat) :=
  match s with
  | [] => none
  | c :: _ =>
    if c = btick ∨ c = '~' then
      let n := (s.takeWhile (fun x => x = c)).length
      if 3 ≤ n then some (c, n) else none
    else none

/-- chunking.py `_flush_text_block`: join, strip, and append if non-empty. -/
def _flush_text_block (lines : List (List Char)) (blocks : List (List Char)) :
    List (List Char) :=
  let block := strip (List.intercalate ['\n'] lines)
  if block.isEmpty then blocks else blocks ++ [block]

/-- Loop state of chunking.py `_split_into_blocks`.  `fence_pattern` is the
single fence character (`fence_match.group(1)[0]` in the source); its initial
value is never read because `in_fence` starts out false. -/
structure SibState where
  blocks : List (List Char)
  current_lines : List (List Char)
  in_fence : Bool
  fence_pattern : Char

/-- One iteration of the `for line in lines` loop of `_split_into_blocks`. -/
def sibStep (st : SibState) (line : List Char) : SibState :=
  match fenceRun line, st.in_fence with
  | some (c, _), false =>
    { blocks := if st.current_lines.isEmpty then st.blocks
                else _flush_text_block st.current_lines st.blocks,
      current_lines := [line], in_fence := true, fence_pattern := c }
  | _, _ =>
    if st.in_fence then
      let stripped := strip line
      if stripped.head? = some st.fence_pattern then
        if stripped.all (fun x => x = st.fence_pattern) then
          { blocks := st.blocks ++ [List.intercalate ['\n'] (st.current_lines ++ [line])],
            current_lines := [], in_fence := false, fence_pattern := st.fence_pattern }
        else { st with current_lines := st.current_lines ++ [line] }
      else { st with current_lines := st.current_lines ++ [line] }
    else if (strip line).isEmpty then
      { st with
        blocks := if st.current_lines.isEmpty then st.blocks
                  else _flush_text_block st.current_lines st.blocks,
        current_lines := [] }
    else { st with current_lines := st.current_lines ++ [line] }

/-- chunking.py `_split_into_blocks`. -/
def _split_into_blocks (text : List Char) : List (List Char) :=
  let lines := splitOnChar '\n' text
  let st := lines.foldl sibStep ⟨[], [], false, 'A'⟩
  if st.current_lines.isEmpty then st.blocks
  else
    let cur := if st.in_fence
               then st.current_lines ++ [List.replicate 3 st.fence_pattern]
               else st.current_lines
    _flush_text_block cur st.blocks

/-- The reduced limit used by `_split_oversized_block` for the body of an
oversized code block: the chunk limit minus room for the re-applied fence
header, the closing fence and a margin, floored at 100 (so it is always
positive — the plain-mode recursion below always progresses). -/
def inner_limit_of (limit headerLen fenceLen : Nat) : Nat :=
  let raw : Int := (limit : Int) - headerLen - fenceLen - 4
  if raw < 100 then 100 else raw.toNat

/-- chunking.py `_split_oversized_block`. -/
def _split_oversized_block (block : List Char) (limit : Nat) :
    Option (List (List Char)) :=
  match fenceRun block with
  | none => _chunk_plain block limit
  | some (c, n) =>
    let fence := List.replicate n c
    let lines := splitOnChar '\n' block
    let header := lines.headD []
    let lastLine := lines.getLastD []
    let body_lines :=
      if (strip lastLine).head? = some c then (lines.drop 1).dropLast
      else lines.drop 1
    let body := List.intercalate ['\n'] body_lines
    (_chunk_plain body (inner_limit_of limit header.length fence.length)).map
      (fun chunks => chunks.map (fun ch => header ++ '\n' :: (ch ++ '\n' :: fence)))

/-- The `for sub in ...` loop of `_chunk_markdown` over the fragments of an
oversized block: a fragment that fits is appended as one chunk, an over-long
fragment is extended by its plain-mode hard cut. -/
def expandPieces (limit : Nat) : List (List Char) → Option (List (List Char))
  | [] => some []
  | sub :: rest => do
    let piece ← if sub.length ≤ limit then some [sub] else _chunk_plain sub limit
    let tail ← expandPieces limit rest
    return piece ++ tail

/-- Splitting an oversized block and emitting its fragments (the
`for sub in _split_oversized_block(...)` loop body of `_chunk_markdown`). -/
def expandOversized (limit : Nat) (block : List Char) : Option (List (List Char)) := do
  let subs ← _split_oversized_block block limit
  expandPieces limit subs

/-- The `for block in blocks` loop of chunking.py `_chunk_markdown`, with the
accumulator `current` made explicit. -/
def cmGo (limit : Nat) (current : List Char) :
    List (List Char) → Option (List (List Char))
  | [] => some (if current.isEmpty then [] else [current])
  | block :: rest =>
    let candidate := if current.isEmpty then block
                     else strip (current ++ ['\n', '\n'] ++ block)
    if candidate.length ≤ limit then
      cmGo limit candidate rest
    else
      let flushed := if current.isEmpty then [] else [current]
      if block.length ≤ limit then
        (cmGo limit block rest).map (fun tail => flushed ++ tail)
      else
        match expandOversized limit block, cmGo limit [] rest with
        | some pieces, some tail => some (flushed ++ pieces ++ tail)
        | _, _ => none

/-- chunking.py `_chunk_markdown`. -/
def _chunk_markdown (text : List Char) (limit : Nat) : Option (List (List Char)) :=
  cmGo limit [] (_split_into_blocks text)

/-- chunking.py `chunk_text`. -/
def chunk_text (text : List Char) (limit : Nat) (mode : ChunkMode) :
    Option (List (List Char)) :=
  if text.isEmpty then some []
  else if text.length ≤ limit then some [text]
  else
    match mode with
    | ChunkMode.MARKDOWN => _chunk_markdown text limit
    | ChunkMode.TEXT => _chunk_plain text limit

/-! ### security.py — DM policy enforcement -/

/-- security.py `DmPolicy` (enum member names as in the source). -/
inductive DmPolicy where
  | OPEN
  | PAIRING
  | DISABLED
deriving DecidableEq

/-- security.py `DmPolicyEnforcer` state: the configured policy, the
allow-set and the pending-approval set (Python `set`s of channel-scoped
sender ids). -/
structure DmPolicyEnforcer where
  policy : DmPolicy
  allow_from : Finset String
  pending : Finset String
deriving DecidableEq

/-- security.py `DmPolicyEnforcer._scoped_id`. -/
def _scoped_id (channel sender_id : String) : String :=
  channel ++ ":" ++ sender_id

/-- security.py `DmPolicyEnforcer.check_access`; the mutation of the pending
set is returned as the new enforcer state. -/
def check_access (st : DmPolicyEnforcer) (channel sender_id : String) :
    (Bool × String) × DmPolicyEnforcer :=
  match st.policy with
  | DmPolicy.DISABLED => ((false, "dm_disabled"), st)
  | DmPolicy.OPEN => ((true, "ok"), st)
  | DmPolicy.PAIRING =>
    let sid := _scoped_id channel sender_id
    if sid ∈ st.allow_from then ((true, "ok"), st)
    else ((false, "awaiting_pairing"), { st with pending := insert sid st.pending })

/-- security.py `DmPolicyEnforcer.approve`. -/
def approve (st : DmPolicyEnforcer) (channel sender_id : String) : DmPolicyEnforcer :=
  let sid := _scoped_id channel sender_id
  { st with pending := st.pending.erase sid,
            allow_from := insert sid st.allow_from }

/-- security.py `DmPolicyEnforcer.deny`. -/
def deny (st : DmPolicyEnforcer) (channel sender_id : String) : DmPolicyEnforcer :=
  { st with pending := st.pending.erase (_scoped_id channel sender_id) }

/-- security.py `DmPolicyEnforcer.revoke`. -/
def revoke (st : DmPolicyEnforcer) (channel sender_id : String) : DmPolicyEnforcer :=
  { st with allow_from := st.allow_from.erase (_scoped_id channel sender_id) }

/-! ### base.py — shared data models -/

/-- base.py `MediaAttachment`.  The numeric metadata fields
(`duration_seconds`, `width`, `height`) are never read by the verified
components and are omitted. -/
structure MediaAttachment where
  type : String
  mime_type : String
  file_id : String
  file_size : Option Nat := none
  filename : Option String := none
  caption : Option String := none
deriving DecidableEq

/-- The `raw` payload dict built by telegram/handlers.py (only the keys the
verified code reads: `message_id` for media-group ordering via
`raw.get("message_id", 0)`, and the group id). -/
structure TgRaw where
  message_id : Option Nat := none
  media_group_id : Option String := none
deriving DecidableEq

/-- base.py `InboundMessage` (text as a character list). -/
structure InboundMessage where
  channel : String
  chat_id : String
  sender_id : String
  sender_name : String
  text : List Char
  media : List MediaAttachment := []
  reply_to_id : Option String := none
  thread_id : Option String := none
  raw : Option TgRaw := none
deriving DecidableEq

/-- base.py `OutboundResult`. -/
structure OutboundResult where
  channel : String
  message_id : String
  success : Bool
  error : Option String := none
deriving DecidableEq

/-! ### debounce.py — coalescing -/

/-- debounce.py `InboundDebouncer._coalesce`.  `none` for an empty batch
(the source's `messages[-1]` presupposes a non-empty batch; `_flush` only
calls it with one).  The text join mirrors
`"\n".join(m.text for m in messages if m.text)`: empty texts are skipped. -/
def _coalesce (messages : List InboundMessage) : Option InboundMessage :=
  match messages.getLast? with
  | none => none
  | some last =>
    some { channel := last.channel
           chat_id := last.chat_id
           sender_id := last.sender_id
           sender_name := last.sender_name
           text := List.intercalate ['\n']
             ((messages.map InboundMessage.text).filter (fun t => ¬ t.isEmpty))
           media := (messages.map InboundMessage.media).flatten
           reply_to_id := last.reply_to_id
           thread_id := last.thread_id
           raw := last.raw }

/-- A rendering of the C6 claim's own words for the coalesced text ("the
texts of the batch joined with a newline separator in arrival order"),
kept separate from the source translation above for comparison. -/
def coalesceTextClaim (messages : List InboundMessage) : List Char :=
  List.intercalate ['\n'] (messages.map InboundMessage.text)

/-! ### telegram/handlers.py — media group buffer -/

/-- The sort key of `MediaGroupBuffer._flush`:
`m.raw.get("message_id", 0) if m.raw else 0`. -/
def mediaGroupSortKey (m : InboundMessage) : Nat :=
  match m.raw with
  | some r => r.message_id.getD 0
  | none => 0

/-- The ordering used by `MediaGroupBuffer._flush`: ascending message-id
ordinal. -/
def mediaGroupLe (a b : InboundMessage) : Prop :=
  mediaGroupSortKey a ≤ mediaGroupSortKey b

instance : DecidableRel mediaGroupLe := fun _ _ => Nat.decLe _ _

instance : IsTotal InboundMessage mediaGroupLe := ⟨fun _ _ => Nat.le_total _ _⟩

instance : IsTrans InboundMessage mediaGroupLe := ⟨fun _ _ _ => Nat.le_trans⟩

/-- telegram/handlers.py `MediaGroupBuffer._flush` (the pure merge step):
sort by the message-id ordinal (Python's sort is stable and ascending, which
insertion sort with `mediaGroupLe` reproduces), keep the first message's text
and metadata, concatenate all media across the sorted group.  `none` when the
buffer is empty (the source returns early). -/
def mediaGroup_flush (messages : List InboundMessage) : Option InboundMessage :=
  match messages with
  | [] => none
  | _ :: _ =>
    let sorted := List.insertionSort mediaGroupLe messages
    match sorted with
    | [] => none
    | first :: _ =>
      some { channel := first.channel
             chat_id := first.chat_id
             sender_id := first.sender_id
             sender_name := first.sender_name
             text := first.text
             media := (sorted.map InboundMessage.media).flatten
             reply_to_id := first.reply_to_id
             thread_id := first.thread_id
             raw := first.raw }

/-! ### media.py — media validation and retrieval -/

/-- Python `fnmatch.fnmatch` on POSIX for the wildcards actually used by the
media allow-lists: `*` (any run of characters) and `?` (any one character);
other characters match literally.  Implemented with a fuel argument so the
definition is structural and kernel-evaluable (fuel `p.length + s.length + 1`
always suffices: every recursive call shrinks `p.length + s.length`). -/
def globMatchF : Nat → List Char → List Char → Bool
  | 0, _, _ => false
  | _ + 1, [], s => s.isEmpty
  | fuel + 1, '*' :: ps, s =>
    globMatchF fuel ps s ||
      (match s with
       | [] => false
       | _ :: s2 => globMatchF fuel ('*' :: ps) s2)
  | fuel + 1, '?' :: ps, s =>
    (match s with
     | [] => false
     | _ :: s2 => globMatchF fuel ps s2)
  | fuel + 1, p :: ps, s =>
    (match s with
     | [] => false
     | c :: s2 => p = c && globMatchF fuel ps s2)

/-- Glob match of a pattern against a name (see `globMatchF`). -/
def globMatch (pat s : List Char) : Bool :=
  globMatchF (pat.length + s.length + 1) pat s

/-- media.py `DEFAULT_ALLOWED_TYPES`. -/
def DEFAULT_ALLOWED_TYPES : List (List Char) :=
  ["image/*".toList, "audio/*".toList, "video/*".toList, "application/pdf".toList]

/-- media.py `DEFAULT_MAX_FILE_SIZE_BYTES` (20 MB). -/
def DEFAULT_MAX_FILE_SIZE_BYTES : Nat := 20 * 1024 * 1024

/-- media.py `MediaProcessor` configuration. -/
structure MediaProcessor where
  max_file_size_bytes : Nat := DEFAULT_MAX_FILE_SIZE_BYTES
  allowed_types : List (List Char) := DEFAULT_ALLOWED_TYPES

/-- media.py `MediaProcessor._is_mime_allowed`. -/
def _is_mime_allowed (mp : MediaProcessor) (mime_type : String) : Bool :=
  mp.allowed_types.any (fun pat => globMatch pat mime_type.toList)

/-- media.py `MediaProcessor.validate`; a raised `MediaValidationError` is
the `Except.error` case (message text abbreviated). -/
def validate (mp : MediaProcessor) (attachment : MediaAttachment) :
    Except String Unit :=
  if ¬ _is_mime_allowed mp attachment.mime_type then
    Except.error ("MIME type '" ++ attachment.mime_type ++ "' is not allowed")
  else
    match attachment.file_size with
    | some sz =>
      if mp.max_file_size_bytes < sz then Except.error "File size exceeds limit"
      else Except.ok ()
    | none => Except.ok ()

/-- Failure cases of `MediaProcessor.download`: a `MediaValidationError`
(rejection) or an arbitrary exception `E` raised by the channel adapter. -/
inductive DlError (E : Type) where
  | rejected (msg : String)
  | adapter (e : E)
deriving DecidableEq

/-- media.py `MediaProcessor.download`: validate, fetch the bytes through the
adapter's `download_file`, then re-check the size against the limit using the
actual byte count. -/
def download (mp : MediaProcessor) (download_file : String → Except E (List Nat × String))
    (attachment : MediaAttachment) : Except (DlError E) (List Nat × String) :=
  match validate mp attachment with
  | Except.error m => Except.error (DlError.rejected m)
  | Except.ok () =>
    match download_file attachment.file_id with
    | Except.error e => Except.error (DlError.adapter e)
    | Except.ok (data, mime_type) =>
      if mp.max_file_size_bytes < data.length then
        Except.error (DlError.rejected "Downloaded file exceeds limit")
      else Except.ok (data, mime_type)

/-- media.py `MediaProcessor.to_adk_part`: the pure conversion of
(bytes, MIME type) into a responder part, modelled as the pair itself. -/
structure AdkPart where
  data : List Nat
  mime_type : String
deriving DecidableEq

/-- media.py `MediaProcessor.process_attachments`: each attachment is
processed independently; any failure (rejection or adapter exception) only
skips that attachment. -/
def process_attachments (mp : MediaProcessor)
    (download_file : String → Except E (List Nat × String))
    (attachments : List MediaAttachment) : List AdkPart :=
  attachments.foldr
    (fun att parts =>
      match download mp download_file att with
      | Except.ok (data, mime_type) => ⟨data, mime_type⟩ :: parts
      | Except.error _ => parts)
    []

/-! ### pipeline.py — inbound pipeline -/

/-- The observable behaviour of a base.py `ChannelPlugin` as consumed by the
pipeline: its id and its send/download capabilities, each of which may raise
an exception `E`. -/
structure ChannelPlugin (E : Type) where
  channel_id : String
  send_text : String → List Char → Option String → Option String → Except E OutboundResult
  download_file : String → Except E (List Nat × String)

/-- One `channel.send_text(...)` invocation made by the pipeline, as recorded
by `_send_response`. -/
structure SendCall where
  target : String
  text : List Char
  reply_to_id : Option String
  thread_id : Option String
deriving DecidableEq

/-- pipeline.py `InboundPipeline` configuration and injected collaborators
(the dispatch function and optional user-id resolver may raise `E`). -/
structure InboundPipeline (E : Type) where
  security : DmPolicyEnforcer
  media_processor : MediaProcessor
  dispatch_fn : String → List Char → List AdkPart → Except E (List Char)
  resolve_user_id : Option (String → String → Except E String) := none
  chunk_limit : Nat := 4096
  chunk_mode : ChunkMode := ChunkMode.MARKDOWN

/-- The fixed user-facing apology substituted when dispatch fails
(pipeline.py line 124). -/
def apology : List Char :=
  "Mi dispiace, si è verificato un errore. Riprova più tardi.".toList

/-- Step 4 of `_handle_after_debounce`: resolve the brain user id, via the
injected resolver if present, else `f"{cid}_{message.sender_id}"`. -/
def resolve_user (pl : InboundPipeline E) (message : InboundMessage) :
    Except E String :=
  match pl.resolve_user_id with
  | some f => f message.channel message.sender_id
  | none => Except.ok (message.channel ++ "_" ++ message.sender_id)

/-- pipeline.py `InboundPipeline._send_response`: chunk the response and send
every chunk through the channel adapter, recording each call together with
its (caught, never propagated) result.  `none` only if the chunking loop
would not terminate. -/
def _send_response (channel : ChannelPlugin E) (original : InboundMessage)
    (response : List Char) (chunk_limit : Nat) (chunk_mode : ChunkMode) :
    Option (List (SendCall × Except E OutboundResult)) :=
  (chunk_text response chunk_limit chunk_mode).map
    (fun chunks => chunks.map (fun chunk =>
      (⟨original.chat_id, chunk, original.reply_to_id, original.thread_id⟩,
       channel.send_text original.chat_id chunk original.reply_to_id original.thread_id)))

/-- pipeline.py `InboundPipeline._handle_after_debounce`.  The result is the
exception outcome of the call (`Except.error e` = an exception escaped to the
caller) together with the trace of `send_text` calls made.  Media failures
are absorbed by `process_attachments` and a dispatch failure is replaced by
the apology; the resolver, however, is awaited outside any `try`, so its
error propagates. -/
def _handle_after_debounce (pl : InboundPipeline E)
    (channels : String → Option (ChannelPlugin E)) (message : InboundMessage) :
    Option (Except E Unit × List (SendCall × Except E OutboundResult)) :=
  let channel? := channels message.channel
  let media_parts : List AdkPart :=
    match message.media, channel? with
    | [], _ => []
    | _, none => []
    | _ :: _, some channel =>
      process_attachments pl.media_processor channel.download_file message.media
  match resolve_user pl message with
  | Except.error e => some (Except.error e, [])
  | Except.ok user_id =>
    let response :=
      match pl.dispatch_fn user_id message.text media_parts with
      | Except.ok r => r
      | Except.error _ => apology
    match channel? with
    | none => some (Except.ok (), [])
    | some channel =>
      (_send_response channel message response pl.chunk_limit pl.chunk_mode).map
        (fun calls => (Except.ok (), calls))

/-- pipeline.py `InboundPipeline.process`: register the channel, run the
security gate, then either enqueue into the debouncer (no media — the
dispatch and reply happen later, on the debounce flush, so this call records
no sends) or handle immediately (media present). -/
def process (pl : InboundPipeline E) (channels : String → Option (ChannelPlugin E))
    (channel : ChannelPlugin E) (message : InboundMessage) :
    Option (Except E Unit × List (SendCall × Except E OutboundResult)) :=
  let cid := channel.channel_id
  let channels2 := fun c => if c = cid then some channel else channels c
  match check_access pl.security cid message.sender_id with
  | ((false, _), _) => some (Except.ok (), [])
  | ((true, _), sec2) =>
    if message.media.isEmpty then some (Except.ok (), [])
    else _handle_after_debounce { pl with security := sec2 } channels2 message

/-! ### telegram/send.py — adapter-level send loop -/

/-- One Telegram `bot.send_message` call made by `send_text_message`. -/
structure TgSendCall where
  text : List Char
  reply_to_message_id : Option Nat
  message_thread_id : Option Nat
deriving DecidableEq

/-- The `for i, chunk in enumerate(chunks)` loop of telegram/send.py
`send_text_message`: `reply_id = reply_to_message_id if i == 0 else None`. -/
def tgCalls (reply_to_message_id message_thread_id : Option Nat) :
    Nat → List (List Char) → List TgSendCall
  | _, [] => []
  | i, chunk :: rest =>
    ⟨chunk, if i = 0 then reply_to_message_id else none, message_thread_id⟩ ::
      tgCalls reply_to_message_id message_thread_id (i + 1) rest

/-- telegram/send.py `TELEGRAM_TEXT_LIMIT`. -/
def TELEGRAM_TEXT_LIMIT : Nat := 4096

/-- telegram/send.py `send_text_message`, reduced to the sequence of
`bot.send_message` calls it makes (per-call results and the Markdown parse
fallback affect only the returned `OutboundResult`s, not the calls). -/
def send_text_message (text : List Char)
    (reply_to_message_id message_thread_id : Option Nat) :
    Option (List TgSendCall) :=
  (chunk_text text TELEGRAM_TEXT_LIMIT ChunkMode.MARKDOWN).map
    (tgCalls reply_to_message_id message_thread_id 0)

/-! ### Concrete fixtures for counterexamples and witnesses -/

/-- A PNG image attachment of unknown size. -/
def pngAtt : MediaAttachment :=
  { type := "image", mime_type := "image/png", file_id := "f1" }

/-- A ZIP attachment (not on the default MIME allow-list). -/
def zipAtt : MediaAttachment :=
  { type := "document", mime_type := "application/zip", file_id := "f2" }

/-- A channel adapter whose sends succeed and whose downloads raise. -/
def exChannel : ChannelPlugin String :=
  { channel_id := "telegram"
    send_text := fun _ _ _ _ =>
      Except.ok { channel := "telegram", message_id := "1", success := true }
    download_file := fun _ => Except.error "network down" }

/-- A media-bearing inbound message that is a reply to message `"42"`. -/
def exMsgMedia : InboundMessage :=
  { channel := "telegram", chat_id := "c1", sender_id := "s1", sender_name := "Ada"
    text := "hi".toList, media := [pngAtt], reply_to_id := some "42" }

/-- A text-only inbound message that is a reply to message `"42"`. -/
def exMsgText : InboundMessage :=
  { channel := "telegram", chat_id := "c1", sender_id := "s1", sender_name := "Ada"
    text := "hi".toList, reply_to_id := some "42" }

/-- Pipeline with an open gate and an identity resolver that raises. -/
def exPipelineResolverRaises : InboundPipeline String :=
  { security := { policy := DmPolicy.OPEN, allow_from := ∅, pending := ∅ }
    media_processor := {}
    dispatch_fn := fun _ _ _ => Except.ok "ok".toList
    resolve_user_id := some (fun _ _ => Except.error "resolver boom") }

/-- Pipeline with an open gate and a dispatch function that raises. -/
def exPipelineDispatchRaises : InboundPipeline String :=
  { security := { policy := DmPolicy.OPEN, allow_from := ∅, pending := ∅ }
    media_processor := {}
    dispatch_fn := fun _ _ _ => Except.error "ai down" }

/-- Fresh pairing-mode enforcer (nobody allowed, nobody pending). -/
def exEnforcer : DmPolicyEnforcer :=
  { policy := DmPolicy.PAIRING, allow_from := ∅, pending := ∅ }

/-- Batch member with text `"a"`. -/
def c6m1 : InboundMessage :=
  { channel := "telegram", chat_id := "c", sender_id := "s", sender_name := "A"
    text := ['a'] }

/-- Batch member with empty text and newer metadata. -/
def c6m2 : InboundMessage :=
  { channel := "telegram", chat_id := "c", sender_id := "s", sender_name := "A"
    text := [], reply_to_id := some "7", raw := some { message_id := some 5 } }

/-- A tilde-fenced code block with a 50-character body, 58 characters in
total, used with `limit = 5` so that the block must be force-split and the
re-wrapped fragment itself exceeds the limit. -/
def c4text : List Char :=
  "~~~\n".toList ++ List.replicate 50 'a' ++ "\n~~~".toList

/-- Media-group members arriving out of ordinal order. -/
def c7m1 : InboundMessage :=
  { channel := "telegram", chat_id := "c", sender_id := "s", sender_name := "A"
    text := [], media := [zipAtt], raw := some { message_id := some 9 } }

/-- Media-group member with the smaller ordinal (arrives second). -/
def c7m2 : InboundMessage :=
  { channel := "telegram", chat_id := "c", sender_id := "s", sender_name := "A"
    text := ['c'], media := [pngAtt], raw := some { message_id := some 8 } }

/-- The merge expected for the media group `[c7m1, c7m2]`: ordinal order puts
`c7m2` first, so its text and metadata win and its media come first. -/
def c7out : InboundMessage :=
  { channel := "telegram", chat_id := "c", sender_id := "s", sender_name := "A"
    text := ['c'], media := [pngAtt, zipAtt], raw := some { message_id := some 8 } }

/-- Decidable equality for `Except` results, used to evaluate the embedded
functions in witnesses. -/
instance {e a : Type} [DecidableEq e] [DecidableEq a] : DecidableEq (Except e a)
  | Except.ok x, Except.ok y =>
    if h : x = y then Decidable.isTrue (by rw [h])
    else Decidable.isFalse (by simp [h])
  | Except.ok _, Except.error _ => Decidable.isFalse (by simp)
  | Except.error _, Except.ok _ => Decidable.isFalse (by simp)
  | Except.error x, Except.error y =>
    if h : x = y then Decidable.isTrue (by rw [h])
    else Decidable.isFalse (by simp [h])

/-! ## Theorems -/

/-- C5: pairing mode admits exactly the allow-set; an unknown sender is
added to the pending set and told `awaiting_pairing`, repeated checks are
idempotent on the state; after `approve` the next check succeeds and the
sender is no longer pending; `disabled` rejects everyone with `dm_disabled`,
`open` admits everyone with `ok`. -/
theorem c5_dm_policy_gate (st : DmPolicyEnforcer) (channel sender_id : String) :
    (st.policy = DmPolicy.PAIRING →
      (_scoped_id channel sender_id ∈ st.allow_from →
        check_access st channel sender_id = ((true, "ok"), st)) ∧
      (_scoped_id channel sender_id ∉ st.allow_from →
        (check_access st channel sender_id).1 = (false, "awaiting_pairing") ∧
        (check_access st channel sender_id).2.pending
          = insert (_scoped_id channel sender_id) st.pending ∧
        check_access (check_access st channel sender_id).2 channel sender_id
          = ((false, "awaiting_pairing"), (check_access st channel sender_id).2)) ∧
      (check_access (approve st channel sender_id) channel sender_id
          = ((true, "ok"), approve st channel sender_id) ∧
        _scoped_id channel sender_id ∉ (approve st channel sender_id).pending)) ∧
    (st.policy = DmPolicy.DISABLED →
      check_access st channel sender_id = ((false, "dm_disabled"), st)) ∧
    (st.policy = DmPolicy.OPEN →
      check_access st channel sender_id = ((true, "ok"), st)) := by
  refine ⟨fun hp => ?_, fun hd => ?_, fun ho => ?_⟩
  · refine ⟨fun hin => ?_, fun hout => ?_, ?_, ?_⟩
    · simp [check_access, hp, hin]
    · refine ⟨by simp [check_access, hp, hout], by simp [check_access, hp, hout], ?_⟩
      simp [check_access, hp, hout, Finset.insert_idem]
    · have hmem : _scoped_id channel sender_id ∈ (approve st channel sender_id).allow_from := by
        simp [approve, Finset.mem_insert]
      simp [check_access, approve, hp, hmem]
    · simp [approve, Finset.not_mem_erase]
  · simp [check_access, hd]
  · simp [check_access, ho]

/-- Witness for C5 at a fresh pairing-mode enforcer: the first check of an
unknown sender yields `awaiting_pairing`, and after approval the next check
yields `ok` with the sender no longer pending. -/
theorem c5_dm_policy_gate_witness :
    (check_access exEnforcer "telegram" "123").1 = (false, "awaiting_pairing") ∧
    check_access (approve exEnforcer "telegram" "123") "telegram" "123"
      = ((true, "ok"), approve exEnforcer "telegram" "123") ∧
    _scoped_id "telegram" "123" ∉ (approve exEnforcer "telegram" "123").pending := by
  have h := c5_dm_policy_gate exEnforcer "telegram" "123"
  have hp := h.1 rfl
  exact ⟨(hp.2.1 (by decide)).1, hp.2.2.1, hp.2.2.2⟩

/-- C8: `validate` rejects an attachment exactly when its MIME type matches
no allow-list glob or its known size exceeds the maximum (an unknown size is
never a rejection); `download` runs `validate` first (its rejection is
returned unchanged, whatever the adapter would do), and after fetching
rejects exactly when the actual byte count exceeds the maximum. -/
theorem c8_media_validate_download {E : Type} (mp : MediaProcessor)
    (att : MediaAttachment) (download_file : String → Except E (List Nat × String)) :
    ((∃ m, validate mp att = Except.error m) ↔
      ((¬ ∃ pat ∈ mp.allowed_types, globMatch pat att.mime_type.toList = true) ∨
       (∃ sz, att.file_size = some sz ∧ mp.max_file_size_bytes < sz))) ∧
    (∀ m, validate mp att = Except.error m →
      download mp download_file att = Except.error (DlError.rejected m)) ∧
    (∀ data mime_type, validate mp att = Except.ok () →
      download_file att.file_id = Except.ok (data, mime_type) →
      (mp.max_file_size_bytes < data.length →
        download mp download_file att
          = Except.error (DlError.rejected "Downloaded file exceeds limit")) ∧
      (data.length ≤ mp.max_file_size_bytes →
        download mp download_file att = Except.ok (data, mime_type))) := by
  refine ⟨?_, ?_, ?_⟩
  · by_cases hmime : _is_mime_allowed mp att.mime_type
    · cases hsz : att.file_size with
      | none =>
        simp only [validate, hmime, not_true, if_false, hsz]
        constructor
        · rintro ⟨m, hm⟩; cases hm
        · rintro (hleft | ⟨sz, hsz2, _⟩)
          · exact absurd (by simpa [_is_mime_allowed, List.any_eq_true] using hmime) hleft
          · cases hsz2
      | some sz =>
        simp only [validate, hmime, not_true, if_false, hsz]
        by_cases hover : mp.max_file_size_bytes < sz
        · simp only [if_pos hover]
          exact ⟨fun _ => Or.inr ⟨sz, rfl, hover⟩, fun _ => ⟨_, rfl⟩⟩
        · simp only [if_neg hover]
          constructor
          · rintro ⟨m, hm⟩; cases hm
          · rintro (hleft | ⟨sz2, hsz2, hover2⟩)
            · exact absurd (by simpa [_is_mime_allowed, List.any_eq_true] using hmime) hleft
            · cases hsz2; exact absurd hover2 hover
    · constructor
      · intro _
        refine Or.inl ?_
        simpa [_is_mime_allowed, List.any_eq_true] using hmime
      · intro _
        exact ⟨"MIME type '" ++ att.mime_type ++ "' is not allowed",
          by simp [validate, hmime]⟩
  · intro m hm
    simp [download, hm]
  · intro data mime_type hok hdl
    refine ⟨fun hover => ?_, fun hfits => ?_⟩
    · simp [download, hok, hdl, hover]
    · simp [download, hok, hdl, Nat.not_lt.mpr hfits]

/-- Witness for C8: against the default policy, an `application/zip`
attachment is rejected by `validate`, while an `image/png` of unknown size
passes `validate` and a 3-byte download of it succeeds. -/
theorem c8_media_validate_download_witness :
    (∃ m, validate {} zipAtt = Except.error m) ∧
    download (E := String) {} (fun _ => Except.ok ([1, 2, 3], "image/png")) pngAtt
      = Except.ok ([1, 2, 3], "image/png") := by
  constructor
  · exact (c8_media_validate_download (E := String) {} zipAtt
      (fun _ => Except.ok ([], ""))).1.mpr (Or.inl (by decide))
  · exact ((c8_media_validate_download {} pngAtt
      (fun _ => Except.ok ([1, 2, 3], "image/png"))).2.2 [1, 2, 3] "image/png"
      (by decide) rfl).2 (by decide)

/-- C6 counterexample: for the batch `[c6m1, c6m2]` whose second message has
empty text, the source joins only the non-empty texts, producing `"a"`,
whereas joining the texts of the batch with a newline separator (the claim's
rule) produces `"a\n"`. -/
theorem c6_coalesce_counterexample :
    (_coalesce [c6m1, c6m2]).map InboundMessage.text = some ['a'] ∧
    coalesceTextClaim [c6m1, c6m2] = ['a', '\n'] ∧
    (['a'] : List Char) ≠ ['a', '\n'] := by
  decide

/-- C6 (amended): coalescing a non-empty batch yields one message whose text
is the non-empty texts of the batch joined with a newline separator in
arrival order (empty texts are skipped), whose media is the concatenation of
the batch's media lists in arrival order, and whose remaining fields are
those of the last message of the batch. -/
theorem c6_coalesce (messages : List InboundMessage) (last : InboundMessage)
    (h : messages.getLast? = some last) :
    ∃ out, _coalesce messages = some out ∧
      out.text = List.intercalate ['\n']
        ((messages.map InboundMessage.text).filter (fun t => ¬ t.isEmpty)) ∧
      out.media = (messages.map InboundMessage.media).flatten ∧
      out.channel = last.channel ∧ out.chat_id = last.chat_id ∧
      out.sender_id = last.sender_id ∧ out.sender_name = last.sender_name ∧
      out.reply_to_id = last.reply_to_id ∧ out.thread_id = last.thread_id ∧
      out.raw = last.raw := by
  unfold _coalesce
  rw [h]
  exact ⟨_, rfl, rfl, rfl, rfl, rfl, rfl, rfl, rfl, rfl, rfl⟩

/-- Witness for C6 (amended) on the two-message batch. -/
theorem c6_coalesce_witness :
    ∃ out, _coalesce [c6m1, c6m2] = some out ∧
      out.text = List.intercalate ['\n']
        (([c6m1, c6m2].map InboundMessage.text).filter (fun t => ¬ t.isEmpty)) ∧
      out.media = ([c6m1, c6m2].map InboundMessage.media).flatten ∧
      out.channel = c6m2.channel ∧ out.chat_id = c6m2.chat_id ∧
      out.sender_id = c6m2.sender_id ∧ out.sender_name = c6m2.sender_name ∧
      out.reply_to_id = c6m2.reply_to_id ∧ out.thread_id = c6m2.thread_id ∧
      out.raw = c6m2.raw :=
  c6_coalesce [c6m1, c6m2] c6m2 (by decide)

/-- C7: a non-empty media-group flush first sorts the buffered messages by
the platform ordinal, then emits one message keeping the first (sorted)
message's text and metadata, with the media of the whole sorted group
concatenated, so media order follows the ordinal rather than arrival
order. -/
theorem c7_media_group_flush (messages : List InboundMessage)
    (out : InboundMessage) (h : mediaGroup_flush messages = some out) :
    ∃ first rest,
      List.insertionSort mediaGroupLe messages = first :: rest ∧
      (first :: rest).Perm messages ∧
      (first :: rest).Sorted mediaGroupLe ∧
      out.text = first.text ∧ out.channel = first.channel ∧
      out.chat_id = first.chat_id ∧ out.sender_id = first.sender_id ∧
      out.sender_name = first.sender_name ∧
      out.reply_to_id = first.reply_to_id ∧ out.thread_id = first.thread_id ∧
      out.raw = first.raw ∧
      out.media = ((first :: rest).map InboundMessage.media).flatten := by
  cases messages with
  | nil => simp [mediaGroup_flush] at h
  | cons m ms =>
    cases hsort : List.insertionSort mediaGroupLe (m :: ms) with
    | nil =>
      have hperm := List.perm_insertionSort mediaGroupLe (m :: ms)
      rw [hsort] at hperm
      exact absurd hperm.length_eq (by simp)
    | cons first rest =>
      refine ⟨first, rest, rfl, ?_, ?_, ?_⟩
      · have hperm := List.perm_insertionSort mediaGroupLe (m :: ms)
        rwa [hsort] at hperm
      · have hsorted := List.sorted_insertionSort mediaGroupLe (m :: ms)
        rwa [hsort] at hsorted
      · unfold mediaGroup_flush at h
        rw [hsort] at h
        cases h
        exact ⟨rfl, rfl, rfl, rfl, rfl, rfl, rfl, rfl, rfl⟩

/-- Witness for C7: the group `[c7m1, c7m2]` (ordinals 9 then 8) flushes to
`c7out`, which carries `c7m2`'s text and metadata and the media in ordinal
order. -/
theorem c7_media_group_flush_witness :
    mediaGroup_flush [c7m1, c7m2] = some c7out ∧
    ∃ first rest,
      List.insertionSort mediaGroupLe [c7m1, c7m2] = first :: rest ∧
      (first :: rest).Perm [c7m1, c7m2] ∧
      (first :: rest).Sorted mediaGroupLe ∧
      c7out.text = first.text ∧ c7out.channel = first.channel ∧
      c7out.chat_id = first.chat_id ∧ c7out.sender_id = first.sender_id ∧
      c7out.sender_name = first.sender_name ∧
      c7out.reply_to_id = first.reply_to_id ∧ c7out.thread_id = first.thread_id ∧
      c7out.raw = first.raw ∧
      c7out.media = ((first :: rest).map InboundMessage.media).flatten :=
  ⟨by decide, c7_media_group_flush [c7m1, c7m2] c7out (by decide)⟩

/-- In `tgCalls`, every call issued at a positive index carries no
reply-target. -/
theorem tgCalls_reply_none (r t : Option Nat) :
    ∀ (chunks : List (List Char)) (i : Nat), i ≠ 0 →
      ∀ call ∈ tgCalls r t i chunks, call.reply_to_message_id = none := by
  intro chunks
  induction chunks with
  | nil => intro i _ call hc; cases hc
  | cons c rest ih =>
    intro i hi call hc
    cases hc with
    | head => simp [if_neg hi]
    | tail _ hmem => exact ih (i + 1) (Nat.succ_ne_zero i) call hmem

/-- C1 counterexample: with chunk limit 3 in plain mode, the response
`"ab cd"` is sent as two chunks and the second `send_text` call still
carries the original reply-target id `"42"`, refuting "every subsequent
chunk is sent without a reply-target id". -/
theorem c1_reply_target_counterexample :
    (_send_response exChannel exMsgText "ab cd".toList 3 ChunkMode.TEXT).map
        (fun rs => rs.map (fun r => (r.1.text, r.1.reply_to_id)))
      = some [("ab".toList, some "42"), ("cd".toList, some "42")] ∧
    (some "42" : Option String) ≠ none := by
  decide

/-- C1 (amended): the pipeline's reply step sends the chunks in order and
attaches the original message's reply-target id to every chunk it passes to
the channel adapter; the only-first-chunk threading is implemented one layer
down, in the Telegram adapter's own send loop (`send_text_message`), whose
first `bot.send_message` call carries the reply-target and whose subsequent
calls carry none. -/
theorem c1_reply_targets :
    (∀ (E : Type) (channel : ChannelPlugin E) (original : InboundMessage)
       (response : List Char) (chunk_limit : Nat) (chunk_mode : ChunkMode)
       (chunks : List (List Char)),
      chunk_text response chunk_limit chunk_mode = some chunks →
      (_send_response channel original response chunk_limit chunk_mode).map
          (List.map Prod.fst)
        = some (chunks.map (fun chunk =>
            ⟨original.chat_id, chunk, original.reply_to_id, original.thread_id⟩))) ∧
    (∀ (text : List Char) (r t : Option Nat) (calls : List TgSendCall),
      send_text_message text r t = some calls →
      (∀ call ∈ calls.head?.toList, call.reply_to_message_id = r) ∧
      (∀ call ∈ calls.tail, call.reply_to_message_id = none)) := by
  constructor
  · intro E channel original response chunk_limit chunk_mode chunks h
    simp [_send_response, h, List.map_map, Function.comp]
  · intro text r t calls h
    simp only [send_text_message, Option.map_eq_some'] at h
    obtain ⟨chunks, hchunks, hcalls⟩ := h
    subst hcalls
    cases chunks with
    | nil =>
      refine ⟨?_, ?_⟩ <;> intro call hc <;> cases hc
    | cons c rest =>
      constructor
      · intro call hc
        simp only [tgCalls, if_pos rfl, List.head?_cons, Option.toList_some,
          List.mem_singleton] at hc
        simp [hc]
      · intro call hc
        simp only [tgCalls, List.tail_cons] at hc
        exact tgCalls_reply_none r t rest 1 one_ne_zero call hc

/-- Witness for C1 (amended): the two-chunk plain-mode send above, and a
single-chunk Telegram send whose one call carries the reply id. -/
theorem c1_reply_targets_witness :
    (_send_response exChannel exMsgText "ab cd".toList 3 ChunkMode.TEXT).map
        (List.map Prod.fst)
      = some (["ab".toList, "cd".toList].map (fun chunk =>
          ⟨exMsgText.chat_id, chunk, exMsgText.reply_to_id, exMsgText.thread_id⟩)) ∧
    ((∀ call ∈ (tgCalls (some 7) none 0 ["hi".toList]).head?.toList,
        call.reply_to_message_id = some 7) ∧
     (∀ call ∈ (tgCalls (some 7) none 0 ["hi".toList]).tail,
        call.reply_to_message_id = none)) :=
  ⟨c1_reply_targets.1 String exChannel exMsgText "ab cd".toList 3 ChunkMode.TEXT
      ["ab".toList, "cd".toList] (by decide),
   c1_reply_targets.2 "hi".toList (some 7) none (tgCalls (some 7) none 0 ["hi".toList])
      (by decide)⟩

/-- C2 is contradicted by the code: a media-bearing message is handled
synchronously inside `process`, and the identity resolver is awaited outside
any `try`, so a resolver exception escapes to the caller of `process` (the
evaluation below shows `process` returning the escaped exception). -/
theorem c2_resolver_exception_escapes :
    process exPipelineResolverRaises (fun _ => none) exChannel exMsgMedia
      = some (Except.error "resolver boom", []) := by
  decide

/-- C9: when the message reaches the post-debounce handler with its channel
registered, the resolver succeeds and the dispatch function raises, the
pipeline substitutes the fixed apology and — provided the chunk limit is at
least the apology's length — makes exactly one `send_text` call, carrying
the apology. -/
theorem c9_dispatch_failure_sends_apology (E : Type) (pl : InboundPipeline E)
    (channels : String → Option (ChannelPlugin E)) (channel : ChannelPlugin E)
    (message : InboundMessage) (e : E) (uid : String)
    (hch : channels message.channel = some channel)
    (hres : resolve_user pl message = Except.ok uid)
    (hdisp : ∀ u t p, pl.dispatch_fn u t p = Except.error e)
    (hlimit : apology.length ≤ pl.chunk_limit) :
    ∃ result,
      _handle_after_debounce pl channels message
        = some (Except.ok (),
            [(⟨message.chat_id, apology, message.reply_to_id, message.thread_id⟩,
              result)]) := by
  have hchunk : chunk_text apology pl.chunk_limit pl.chunk_mode = some [apology] := by
    have hne : apology.isEmpty = false := by decide
    simp [chunk_text, hne, hlimit]
  refine ⟨channel.send_text message.chat_id apology message.reply_to_id
    message.thread_id, ?_⟩
  simp [_handle_after_debounce, hres, hch, hdisp, _send_response, hchunk]

/-- Witness for C9: a dispatch function that always raises leads to exactly
one send-back call carrying the apology. -/
theorem c9_dispatch_failure_sends_apology_witness :
    ∃ result,
      _handle_after_debounce exPipelineDispatchRaises (fun _ => some exChannel)
          exMsgText
        = some (Except.ok (),
            [(⟨exMsgText.chat_id, apology, exMsgText.reply_to_id,
               exMsgText.thread_id⟩, result)]) :=
  c9_dispatch_failure_sends_apology String exPipelineDispatchRaises
    (fun _ => some exChannel) exChannel exMsgText "ai down" "telegram_s1"
    rfl rfl (fun _ _ _ => rfl) (by decide)

/-! ### Helper lemmas about stripping -/

/-- `rstrip` splits off a whitespace-only tail. -/
theorem rstrip_decomp (s : List Char) :
    rstrip s ++ (s.reverse.takeWhile isWs).reverse = s ∧
    ∀ a ∈ (s.reverse.takeWhile isWs).reverse, isWs a = true := by
  constructor
  · have h2 := congrArg List.reverse (List.takeWhile_append_dropWhile isWs s.reverse)
    rw [List.reverse_append, List.reverse_reverse] at h2
    simpa [rstrip] using h2
  · intro a ha
    exact List.mem_takeWhile_imp (List.mem_reverse.mp ha)

/-- `rstrip s` is a prefix of `s`. -/
theorem rstrip_isPre (s : List Char) : rstrip s <+: s :=
  ⟨(s.reverse.takeWhile isWs).reverse, (rstrip_decomp s).1⟩

/-- `rstrip s` is a sublist of `s`. -/
theorem rstrip_sublist (s : List Char) : (rstrip s).Sublist s :=
  (rstrip_isPre s).sublist

/-- `lstrip s` is a suffix of `s`. -/
theorem lstrip_isSuf (s : List Char) : lstrip s <:+ s :=
  ⟨s.takeWhile isWs, List.takeWhile_append_dropWhile isWs s⟩

/-- `lstrip s` is a sublist of `s`. -/
theorem lstrip_sublist (s : List Char) : (lstrip s).Sublist s :=
  (lstrip_isSuf s).sublist

/-- Dropping a whitespace head-run preserves the non-whitespace characters. -/
theorem filter_lstrip (s : List Char) :
    (lstrip s).filter (fun c => !(isWs c)) = s.filter (fun c => !(isWs c)) := by
  induction s with
  | nil => rfl
  | cons a t ih =>
    cases h : isWs a with
    | true =>
      have hr : (a :: t).filter (fun c => !(isWs c)) = t.filter (fun c => !(isWs c)) := by
        simp [List.filter_cons, h]
      rw [hr, lstrip, List.dropWhile_cons, if_pos h]
      simpa [lstrip] using ih
    | false =>
      rw [lstrip, List.dropWhile_cons, if_neg (by simp [h])]

/-- Dropping a whitespace tail-run preserves the non-whitespace characters. -/
theorem filter_rstrip (s : List Char) :
    (rstrip s).filter (fun c => !(isWs c)) = s.filter (fun c => !(isWs c)) := by
  obtain ⟨hdec, hws⟩ := rstrip_decomp s
  conv_rhs => rw [← hdec]
  rw [List.filter_append]
  have : ((s.reverse.takeWhile isWs).reverse).filter (fun c => !(isWs c)) = [] :=
    List.filter_eq_nil_iff.mpr (fun a ha => by simp [hws a ha])
  simp [this]

/-- Stripping preserves the non-whitespace characters. -/
theorem filter_strip (s : List Char) :
    (strip s).filter (fun c => !(isWs c)) = s.filter (fun c => !(isWs c)) := by
  rw [strip, filter_lstrip, filter_rstrip]

/-! ### Helper lemmas about the plain-mode cut -/

/-- A successful `rfindBefore` result respects the window bound. -/
theorem rfindBefore_bound (s sep : List Char) (endPos idx : Nat)
    (h : rfindBefore s sep endPos = some idx) : idx + sep.length ≤ endPos := by
  have hmem := List.mem_of_mem_getLast? h
  have hf := (List.mem_filter.mp hmem).2
  simp only [Bool.and_eq_true, decide_eq_true_eq] at hf
  exact hf.1

/-- A successful `_find_break` cut is positive and within the limit. -/
theorem _find_break_bounds (text sep : List Char) (limit cut : Nat)
    (h : _find_break text limit sep = some cut) : 1 ≤ cut ∧ cut ≤ limit := by
  unfold _find_break at h
  cases hr : rfindBefore text sep limit with
  | none => rw [hr] at h; cases h
  | some idx =>
    rw [hr] at h
    dsimp only at h
    by_cases hidx : 0 < idx
    · rw [if_pos hidx] at h
      cases h
      exact ⟨by omega, rfindBefore_bound text sep limit idx hr⟩
    · rw [if_neg hidx] at h; cases h

/-- The chosen cut never exceeds the limit. -/
theorem chooseCut_le (rem : List Char) (limit : Nat) :
    chooseCut rem limit ≤ limit := by
  unfold chooseCut
  cases h1 : _find_break rem limit ['
', '
'] with
  | some cut => exact (_find_break_bounds rem _ limit cut h1).2
  | none =>
    cases h2 : _find_break rem limit ['
'] with
    | some cut => exact (_find_break_bounds rem _ limit cut h2).2
    | none =>
      cases h3 : _find_break rem limit [' '] with
      | some cut => exact (_find_break_bounds rem _ limit cut h3).2
      | none => exact Nat.le_refl limit

/-- For a positive limit the chosen cut is positive (this is the progress
property of the plain-mode loop). -/
theorem chooseCut_pos (rem : List Char) (limit : Nat) (hl : 1 ≤ limit) :
    1 ≤ chooseCut rem limit := by
  unfold chooseCut
  cases h1 : _find_break rem limit ['
', '
'] with
  | some cut => exact (_find_break_bounds rem _ limit cut h1).1
  | none =>
    cases h2 : _find_break rem limit ['
'] with
    | some cut => exact (_find_break_bounds rem _ limit cut h2).1
    | none =>
      cases h3 : _find_break rem limit [' '] with
      | some cut => exact (_find_break_bounds rem _ limit cut h3).1
      | none => exact hl

/-! ### The plain-mode chunking invariant -/

/-- Invariant of the `_chunk_plain` loop: every produced chunk fits the
limit, the concatenation of the chunks is a sublist of the remainder, and
only whitespace is lost. -/
theorem chunkPlainGo_spec (limit : Nat) :
    ∀ (fuel : Nat) (rem : List Char) (cs : List (List Char)),
      chunkPlainGo limit fuel rem = some cs →
      (∀ c ∈ cs, c.length ≤ limit) ∧
      cs.flatten.Sublist rem ∧
      cs.flatten.filter (fun c => !(isWs c)) = rem.filter (fun c => !(isWs c)) := by
  intro fuel
  induction fuel with
  | zero =>
    intro rem cs h
    cases rem with
    | nil =>
      simp only [chunkPlainGo] at h
      cases h
      exact ⟨fun c hc => absurd hc (List.not_mem_nil c), List.nil_sublist _, rfl⟩
    | cons a t =>
      simp only [chunkPlainGo] at h
      cases h
  | succ fuel ih =>
    intro rem cs h
    cases rem with
    | nil =>
      simp only [chunkPlainGo] at h
      cases h
      exact ⟨fun c hc => absurd hc (List.not_mem_nil c), List.nil_sublist _, rfl⟩
    | cons a t =>
      simp only [chunkPlainGo] at h
      by_cases hlen : (a :: t).length ≤ limit
      · rw [if_pos hlen] at h
        cases h
        refine ⟨?_, ?_, ?_⟩
        · intro c hc
          cases hc with
          | head => exact hlen
          | tail _ hc2 => cases hc2
        · simp
        · simp
      · rw [if_neg hlen] at h
        obtain ⟨rest, hrest, hcs⟩ := Option.map_eq_some'.mp h
        subst hcs
        obtain ⟨ihlen, ihsub, ihfil⟩ := ih _ _ hrest
        have hcut_le : chooseCut (a :: t) limit ≤ limit := chooseCut_le _ _
        refine ⟨?_, ?_, ?_⟩
        · intro c hc
          cases hc with
          | head =>
            calc (rstrip ((a :: t).take (chooseCut (a :: t) limit))).length
                ≤ ((a :: t).take (chooseCut (a :: t) limit)).length :=
                  (rstrip_sublist _).length_le
              _ ≤ chooseCut (a :: t) limit := by
                  rw [List.length_take]; exact Nat.min_le_left _ _
              _ ≤ limit := hcut_le
          | tail _ hc2 => exact ihlen c hc2
        · rw [List.flatten_cons]
          have h1 : (rstrip ((a :: t).take (chooseCut (a :: t) limit))).Sublist
              ((a :: t).take (chooseCut (a :: t) limit)) := rstrip_sublist _
          have h2 : rest.flatten.Sublist ((a :: t).drop (chooseCut (a :: t) limit)) :=
            ihsub.trans (lstrip_sublist _)
          have := h1.append h2
          rwa [List.take_append_drop] at this
        · rw [List.flatten_cons, List.filter_append, filter_rstrip, ihfil,
            filter_lstrip, ← List.filter_append, List.take_append_drop]

/-- C3: for a non-empty text, whenever plain-mode chunking returns, every
chunk fits within the limit and the concatenation of the chunks in order is
the input with only whitespace characters deleted (it is a sublist of the
input with the same non-whitespace characters, in order). -/
theorem c3_plain_chunking (text : List Char) (limit : Nat)
    (cs : List (List Char)) (hne : text ≠ [])
    (h : chunk_text text limit ChunkMode.TEXT = some cs) :
    (∀ c ∈ cs, c.length ≤ limit) ∧
    cs.flatten.Sublist text ∧
    cs.flatten.filter (fun c => !(isWs c)) = text.filter (fun c => !(isWs c)) := by
  unfold chunk_text at h
  rw [if_neg (by simpa [List.isEmpty_iff] using hne)] at h
  by_cases hlen : text.length ≤ limit
  · rw [if_pos hlen] at h
    cases h
    refine ⟨?_, by simp, by simp⟩
    intro c hc
    cases hc with
    | head => exact hlen
    | tail _ hc2 => cases hc2
  · rw [if_neg hlen] at h
    exact chunkPlainGo_spec limit text.length text cs h

/-- Witness for C3: `"a b"` at limit 2 chunks to `["a", "b"]`, which fits
the limit and loses only the space at the cut. -/
theorem c3_plain_chunking_witness :
    (∀ c ∈ [['a'], ['b']], c.length ≤ 2) ∧
    ([['a'], ['b']] : List (List Char)).flatten.Sublist "a b".toList ∧
    ([['a'], ['b']] : List (List Char)).flatten.filter (fun c => !(isWs c))
      = "a b".toList.filter (fun c => !(isWs c)) :=
  c3_plain_chunking "a b".toList 2 [['a'], ['b']] (by decide) (by decide)

/-! ### Termination of the chunkers -/

/-- The inner limit for splitting an oversized code block is always at least
100, in particular positive. -/
theorem inner_limit_of_ge (limit headerLen fenceLen : Nat) :
    100 ≤ inner_limit_of limit headerLen fenceLen := by
  unfold inner_limit_of
  by_cases h : ((limit : Int) - headerLen - fenceLen - 4) < 100
  · rw [if_pos h]
  · rw [if_neg h]
    omega

/-- With a positive limit, fuel equal to the remainder's length always
suffices for the plain-mode loop. -/
theorem chunkPlainGo_isSome (limit : Nat) (hl : 1 ≤ limit) :
    ∀ (fuel : Nat) (rem : List Char), rem.length ≤ fuel →
      (chunkPlainGo limit fuel rem).isSome := by
  intro fuel
  induction fuel with
  | zero =>
    intro rem hr
    cases rem with
    | nil => simp [chunkPlainGo]
    | cons a t => simp at hr
  | succ fuel ih =>
    intro rem hr
    cases rem with
    | nil => simp [chunkPlainGo]
    | cons a t =>
      simp only [chunkPlainGo]
      by_cases hlen : (a :: t).length ≤ limit
      · rw [if_pos hlen]; simp
      · rw [if_neg hlen]
        have hcut : 1 ≤ chooseCut (a :: t) limit := chooseCut_pos _ _ hl
        have hrec : (lstrip ((a :: t).drop (chooseCut (a :: t) limit))).length ≤ fuel := by
          have h1 := (lstrip_sublist ((a :: t).drop (chooseCut (a :: t) limit))).length_le
          have h2 := List.length_drop (chooseCut (a :: t) limit) (a :: t)
          simp only [List.length_cons] at hr h2 ⊢
          omega
        obtain ⟨v, hv⟩ := Option.isSome_iff_exists.mp (ih _ hrec)
        simp [hv]

/-- `_chunk_plain` returns for every positive limit. -/
theorem _chunk_plain_isSome (text : List Char) (limit : Nat) (hl : 1 ≤ limit) :
    (_chunk_plain text limit).isSome :=
  chunkPlainGo_isSome limit hl text.length text (Nat.le_refl _)

/-- The oversized-block splitter returns for every positive limit. -/
theorem _split_oversized_block_isSome (block : List Char) (limit : Nat)
    (hl : 1 ≤ limit) : (_split_oversized_block block limit).isSome := by
  unfold _split_oversized_block
  cases hf : fenceRun block with
  | none => exact _chunk_plain_isSome block limit hl
  | some cn =>
    obtain ⟨c, n⟩ := cn
    have hinner : 1 ≤ inner_limit_of limit
        ((splitOnChar '\n' block).headD []).length (List.replicate n c).length :=
      le_trans (by omega) (inner_limit_of_ge _ _ _)
    obtain ⟨v, hv⟩ := Option.isSome_iff_exists.mp
      (_chunk_plain_isSome _ _ hinner)
    simp only []
    rw [hv]
    simp

/-- The per-fragment emission loop returns for every positive limit. -/
theorem expandPieces_isSome (limit : Nat) (hl : 1 ≤ limit) :
    ∀ subs : List (List Char), (expandPieces limit subs).isSome := by
  intro subs
  induction subs with
  | nil => simp [expandPieces]
  | cons sub rest ih =>
    simp only [expandPieces]
    obtain ⟨t, ht⟩ := Option.isSome_iff_exists.mp ih
    by_cases hfit : sub.length ≤ limit
    · simp [hfit, ht]
    · obtain ⟨p, hp⟩ := Option.isSome_iff_exists.mp
        (_chunk_plain_isSome sub limit hl)
      simp [hfit, hp, ht]

/-- The oversized-block expansion returns for every positive limit. -/
theorem expandOversized_isSome (block : List Char) (limit : Nat)
    (hl : 1 ≤ limit) : (expandOversized limit block).isSome := by
  unfold expandOversized
  obtain ⟨subs, hsubs⟩ := Option.isSome_iff_exists.mp
    (_split_oversized_block_isSome block limit hl)
  obtain ⟨pieces, hpieces⟩ := Option.isSome_iff_exists.mp
    (expandPieces_isSome limit hl subs)
  simp [hsubs, hpieces]

/-- The block-accumulation loop of markdown chunking returns for every
positive limit. -/
theorem cmGo_isSome (limit : Nat) (hl : 1 ≤ limit) :
    ∀ (blocks : List (List Char)) (current : List Char),
      (cmGo limit current blocks).isSome := by
  intro blocks
  induction blocks with
  | nil => intro current; simp [cmGo]
  | cons b rest ih =>
    intro current
    simp only [cmGo]
    by_cases hcand : (if current.isEmpty then b
        else strip (current ++ ['\n', '\n'] ++ b)).length ≤ limit
    · rw [if_pos hcand]
      exact ih _
    · rw [if_neg hcand]
      by_cases hfit : b.length ≤ limit
      · rw [if_pos hfit]
        obtain ⟨v, hv⟩ := Option.isSome_iff_exists.mp (ih b)
        simp [hv]
      · rw [if_neg hfit]
        obtain ⟨pieces, hpieces⟩ := Option.isSome_iff_exists.mp
          (expandOversized_isSome b limit hl)
        obtain ⟨tail, htail⟩ := Option.isSome_iff_exists.mp (ih [])
        simp [hpieces, htail]

/-- At limit 0 the plain-mode loop never terminates on the input `"a"`:
no amount of fuel makes it return. -/
theorem chunkPlainGo_zero_stuck :
    ∀ fuel : Nat, chunkPlainGo 0 fuel ['a'] = none := by
  intro fuel
  induction fuel with
  | zero => rfl
  | succ fuel ih =>
    simp only [chunkPlainGo]
    rw [if_neg (by decide)]
    have hstep : lstrip (List.drop (chooseCut ['a'] 0) ['a']) = ['a'] := by decide
    rw [hstep, ih]
    rfl

/-- C10: for every text and positive limit, `chunk_text` returns a (finite)
chunk list in both modes; a positive limit makes every plain-mode iteration
shorten the remainder; the oversized-block splitter always recurses into
plain mode with a positive inner limit; and the positivity precondition is
required — at limit 0 the plain loop makes no progress on `"a"` for any
fuel. -/
theorem c10_chunking_terminates :
    (∀ (text : List Char) (limit : Nat) (mode : ChunkMode), 1 ≤ limit →
      (chunk_text text limit mode).isSome) ∧
    (∀ (rem : List Char) (limit : Nat), 1 ≤ limit → limit < rem.length →
      (lstrip (rem.drop (chooseCut rem limit))).length < rem.length) ∧
    (∀ limit headerLen fenceLen : Nat,
      1 ≤ inner_limit_of limit headerLen fenceLen) ∧
    (∀ fuel : Nat, chunkPlainGo 0 fuel ['a'] = none) := by
  refine ⟨?_, ?_, ?_, chunkPlainGo_zero_stuck⟩
  · intro text limit mode hl
    unfold chunk_text
    by_cases hne : text.isEmpty
    · simp [hne]
    · rw [if_neg hne]
      by_cases hlen : text.length ≤ limit
      · simp [hlen]
      · rw [if_neg hlen]
        cases mode with
        | TEXT => exact _chunk_plain_isSome text limit hl
        | MARKDOWN => exact cmGo_isSome limit hl (_split_into_blocks text) []
  · intro rem limit hl hlen
    have hcut := chooseCut_pos rem limit hl
    have h1 := (lstrip_sublist (rem.drop (chooseCut rem limit))).length_le
    have h2 := List.length_drop (chooseCut rem limit) rem
    omega
  · intro limit headerLen fenceLen
    exact le_trans (by omega) (inner_limit_of_ge limit headerLen fenceLen)

/-- Witness for C10 at limit 1: both modes return on `"ab"`, the loop
shortens `"ab"`, and the inner limit at 1 is positive. -/
theorem c10_chunking_terminates_witness :
    (chunk_text "ab".toList 1 ChunkMode.TEXT).isSome ∧
    (chunk_text "ab".toList 1 ChunkMode.MARKDOWN).isSome ∧
    (lstrip ("ab".toList.drop (chooseCut "ab".toList 1))).length
      < "ab".toList.length ∧
    1 ≤ inner_limit_of 1 3 3 :=
  ⟨c10_chunking_terminates.1 "ab".toList 1 ChunkMode.TEXT (by decide),
   c10_chunking_terminates.1 "ab".toList 1 ChunkMode.MARKDOWN (by decide),
   c10_chunking_terminates.2.1 "ab".toList 1 (by decide) (by decide),
   c10_chunking_terminates.2.2.1 1 3 3⟩

/-! ### Infix survival under stripping -/

/-- An infix whose first character is not whitespace survives `lstrip`. -/
theorem infix_lstrip_of_head (x s : List Char) (h : x <:+: s)
    (hx : ∀ a, x.head? = some a → isWs a = false) : x <:+: lstrip s := by
  obtain ⟨u, v, rfl⟩ := h
  induction u with
  | nil =>
    cases x with
    | nil => exact List.nil_infix
    | cons a x2 =>
      have ha := hx a rfl
      simp only [lstrip, List.nil_append, List.cons_append, List.dropWhile_cons, ha,
        Bool.false_eq_true, if_false]
      exact ⟨[], v, by simp⟩
  | cons w u2 ihu =>
    cases hw : isWs w with
    | true =>
      simp only [lstrip, List.cons_append, List.dropWhile_cons, hw, if_true]
      simpa [lstrip] using ihu
    | false =>
      simp only [lstrip, List.cons_append, List.dropWhile_cons, hw,
        Bool.false_eq_true, if_false]
      exact ⟨w :: u2, v, by simp⟩

/-- An infix whose last character is not whitespace survives `rstrip`. -/
theorem infix_rstrip_of_getLast (x s : List Char) (h : x <:+: s)
    (hx : ∀ a, x.getLast? = some a → isWs a = false) : x <:+: rstrip s := by
  have h2 : x.reverse <:+: s.reverse := List.reverse_infix.mpr h
  have hx2 : ∀ a, x.reverse.head? = some a → isWs a = false := by
    intro a ha
    rw [List.head?_reverse] at ha
    exact hx a ha
  have h3 := infix_lstrip_of_head x.reverse s.reverse h2 hx2
  have h4 : lstrip s.reverse = (rstrip s).reverse := by
    simp [lstrip, rstrip]
  rw [h4] at h3
  exact List.reverse_infix.mp h3

/-- An infix with non-whitespace first and last characters survives
`strip`. -/
theorem infix_strip_of_ends (x s : List Char) (h : x <:+: s)
    (hh : ∀ a, x.head? = some a → isWs a = false)
    (hl : ∀ a, x.getLast? = some a → isWs a = false) : x <:+: strip s :=
  infix_lstrip_of_head x (rstrip s) (infix_rstrip_of_getLast x s h hl) hh

/-- The head of a `dropWhile` result falsifies the predicate. -/
theorem head?_dropWhile_not (p : Char → Bool) :
    ∀ (l : List Char) (a : Char), (l.dropWhile p).head? = some a → p a = false := by
  intro l
  induction l with
  | nil => intro a ha; cases ha
  | cons x xs ih =>
    intro a ha
    rw [List.dropWhile_cons] at ha
    by_cases hx : p x = true
    · rw [if_pos hx] at ha
      exact ih a ha
    · rw [if_neg hx] at ha
      cases ha
      cases hpx : p x with
      | true => exact absurd hpx hx
      | false => rfl

/-- The last character of an `rstrip` result is not whitespace. -/
theorem rstrip_getLast_not_ws (s : List Char) :
    ∀ a, (rstrip s).getLast? = some a → isWs a = false := by
  intro a ha
  rw [rstrip, List.getLast?_reverse] at ha
  exact head?_dropWhile_not isWs s.reverse a ha

/-- For a list starting with a non-whitespace character, `rstrip` keeps the
head and produces a non-empty list with non-whitespace last character. -/
theorem rstrip_code_block (b : List Char) (c : Char) (hb : b.head? = some c)
    (hc : isWs c = false) :
    rstrip b ≠ [] ∧ (rstrip b).head? = some c := by
  cases b with
  | nil => cases hb
  | cons b0 t =>
    cases hb
    have hfil : (rstrip (c :: t)).filter (fun x => !(isWs x))
        = (c :: t).filter (fun x => !(isWs x)) := filter_rstrip (c :: t)
    have hne : rstrip (c :: t) ≠ [] := by
      intro hnil
      rw [hnil] at hfil
      simp [List.filter_cons, hc] at hfil
    obtain ⟨tl, htl⟩ := rstrip_isPre (c :: t)
    cases hr : rstrip (c :: t) with
    | nil => exact absurd hr hne
    | cons y ys =>
      rw [hr] at htl
      have hyc : y = c := by
        have h2 := congrArg List.head? htl
        simpa using h2
      exact ⟨by simp, by simp [hyc]⟩

/-! ### Line splitting and fence decomposition -/

/-- `splitOnChar` never returns an empty list of pieces. -/
theorem splitOnChar_ne_nil (sep : Char) (s : List Char) :
    splitOnChar sep s ≠ [] := by
  induction s with
  | nil => simp [splitOnChar]
  | cons x xs ih =>
    simp only [splitOnChar]
    cases hsp : splitOnChar sep xs with
    | nil => exact absurd hsp ih
    | cons h t =>
      by_cases hx : x = sep
      · simp [hx]
      · simp [hx]

/-- The first piece of `splitOnChar` is the head-run of non-separator
characters. -/
theorem splitOnChar_headD (sep : Char) (s : List Char) :
    (splitOnChar sep s).headD [] = s.takeWhile (fun x => decide (x ≠ sep)) := by
  induction s with
  | nil => rfl
  | cons x xs ih =>
    simp only [splitOnChar]
    cases hsp : splitOnChar sep xs with
    | nil => exact absurd hsp (splitOnChar_ne_nil sep xs)
    | cons h t =>
      rw [hsp] at ih
      by_cases hx : x = sep
      · simp [hx, List.takeWhile_cons]
      · dsimp only
        rw [if_neg hx]
        simp only [List.headD_cons, List.takeWhile_cons]
        rw [if_pos (by simp [hx])]
        simpa using ih

/-- A replicate-run prefix survives `takeWhile` for a different separator. -/
theorem replicate_isPre_takeWhile (c sep : Char) (hc : c ≠ sep) (n : Nat)
    (rest : List Char) :
    List.replicate n c <+:
      (List.replicate n c ++ rest).takeWhile (fun x => decide (x ≠ sep)) := by
  induction n with
  | zero => simp
  | succ n ih =>
    obtain ⟨t, ht⟩ := ih
    refine ⟨t, ?_⟩
    simp only [List.replicate_succ, List.cons_append, List.takeWhile_cons]
    rw [if_pos (by simp [hc]), ht]

/-- A successful fence match decomposes the block as a maximal fence run
followed by the rest. -/
theorem fenceRun_decomp (block : List Char) (c : Char) (n : Nat)
    (h : fenceRun block = some (c, n)) :
    block.head? = some c ∧ (c = btick ∨ c = '~') ∧ 3 ≤ n ∧
    ∃ rest, block = List.replicate n c ++ rest := by
  cases block with
  | nil => cases h
  | cons b0 bs =>
    unfold fenceRun at h
    dsimp only at h
    by_cases hcb : b0 = btick ∨ b0 = '~'
    · rw [if_pos hcb] at h
      by_cases h3 : 3 ≤ ((b0 :: bs).takeWhile (fun x => x = b0)).length
      · rw [if_pos h3] at h
        cases h
        have hrep : (c :: bs).takeWhile (fun x => x = c)
            = List.replicate ((c :: bs).takeWhile (fun x => x = c)).length c :=
          List.eq_replicate_of_mem (fun b hbm => by
            simpa using List.mem_takeWhile_imp hbm)
        refine ⟨rfl, hcb, h3, (c :: bs).dropWhile (fun x => x = c), ?_⟩
        conv_lhs => rw [← List.takeWhile_append_dropWhile (fun x => x = c) (c :: bs)]
        rw [← hrep]
      · rw [if_neg h3] at h
        cases h
    · rw [if_neg hcb] at h
      cases h

/-- Fence characters are not whitespace. -/
theorem fence_char_not_ws (c : Char) (h : c = btick ∨ c = '~') :
    isWs c = false := by
  cases h with
  | inl h1 => rw [h1]; decide
  | inr h2 => rw [h2]; decide

/-- Fence characters are not newlines. -/
theorem fence_char_ne_newline (c : Char) (h : c = btick ∨ c = '~') :
    c ≠ '\n' := by
  cases h with
  | inl h1 => rw [h1]; decide
  | inr h2 => rw [h2]; decide

/-! ### Fence preservation when splitting an oversized code block -/

/-- Every fragment produced by `_split_oversized_block` for a fenced block
begins with the block's fence run (as part of the re-applied header) and
ends with the closing fence run of the same character. -/
theorem split_oversized_fence_wrap (block : List Char) (limit : Nat)
    (c : Char) (n : Nat) (hfence : fenceRun block = some (c, n))
    (frs : List (List Char)) (hsplit : _split_oversized_block block limit = some frs) :
    ∀ fr ∈ frs, List.replicate n c <+: fr ∧ List.replicate n c <:+ fr := by
  obtain ⟨hhead, hcb, h3, rest, hdecomp⟩ := fenceRun_decomp block c n hfence
  unfold _split_oversized_block at hsplit
  rw [hfence] at hsplit
  dsimp only at hsplit
  obtain ⟨chunks, hchunks, hfrs⟩ := Option.map_eq_some'.mp hsplit
  subst hfrs
  intro fr hfr
  obtain ⟨ch, hchmem, hwrap⟩ := List.mem_map.mp hfr
  subst hwrap
  constructor
  · have hpre : List.replicate n c <+: (splitOnChar '\n' block).headD [] := by
      rw [splitOnChar_headD, hdecomp]
      exact replicate_isPre_takeWhile c '\n' (fence_char_ne_newline c hcb) n rest
    exact hpre.trans (List.prefix_append _ _)
  · refine ⟨(splitOnChar '\n' block).headD [] ++ '\n' :: ch ++ ['\n'], ?_⟩
    simp

/-! ### Whole code blocks are kept inside one chunk -/

/-- If a string with non-whitespace first and last characters occurs inside
the running accumulator, it ends up inside one of the emitted chunks. -/
theorem cmGo_keeps (limit : Nat) (x : List Char) (hne : x ≠ [])
    (hh : ∀ a, x.head? = some a → isWs a = false)
    (hl : ∀ a, x.getLast? = some a → isWs a = false) :
    ∀ (blocks : List (List Char)) (current : List Char)
      (cs : List (List Char)),
      x <:+: current → cmGo limit current blocks = some cs →
      ∃ ch ∈ cs, x <:+: ch := by
  intro blocks
  induction blocks with
  | nil =>
    intro current cs hinf hgo
    have hcur : current.isEmpty = false := List.isEmpty_eq_false.mpr (by
      intro hc
      rw [hc] at hinf
      exact hne (List.infix_nil.mp hinf))
    simp only [cmGo, hcur, Bool.false_eq_true, if_false] at hgo
    cases hgo
    exact ⟨current, List.mem_singleton_self current, hinf⟩
  | cons b rest ih =>
    intro current cs hinf hgo
    have hcur : current.isEmpty = false := List.isEmpty_eq_false.mpr (by
      intro hc
      rw [hc] at hinf
      exact hne (List.infix_nil.mp hinf))
    simp only [cmGo, hcur, Bool.false_eq_true, if_false] at hgo
    by_cases hcand : (strip (current ++ ['\n', '\n'] ++ b)).length ≤ limit
    · rw [if_pos hcand] at hgo
      have hinf2 : x <:+: strip (current ++ ['\n', '\n'] ++ b) := by
        refine infix_strip_of_ends x _ ?_ hh hl
        obtain ⟨u, v, huv⟩ := hinf
        exact ⟨u, v ++ ['\n', '\n'] ++ b, by rw [← huv]; simp⟩
      exact ih _ _ hinf2 hgo
    · rw [if_neg hcand] at hgo
      by_cases hfit : b.length ≤ limit
      · rw [if_pos hfit] at hgo
        obtain ⟨tail, htail, hcs⟩ := Option.map_eq_some'.mp hgo
        subst hcs
        exact ⟨current, List.mem_cons_self current tail, hinf⟩
      · rw [if_neg hfit] at hgo
        cases hexp : expandOversized limit b with
        | none => rw [hexp] at hgo; cases hgo
        | some pieces =>
          rw [hexp] at hgo
          cases htail : cmGo limit [] rest with
          | none => rw [htail] at hgo; cases hgo
          | some tail =>
            rw [htail] at hgo
            cases hgo
            exact ⟨current, List.mem_cons_self current _, hinf⟩

/-- A fenced code block that fits within the limit is kept (up to its
trailing whitespace) inside a single chunk of the markdown accumulation
loop, whatever the accumulator state. -/
theorem cmGo_contains (limit : Nat) (b : List Char) (c : Char) (n : Nat)
    (hfence : fenceRun b = some (c, n)) (hlen : b.length ≤ limit) :
    ∀ (blocks : List (List Char)) (current : List Char)
      (cs : List (List Char)),
      b ∈ blocks → cmGo limit current blocks = some cs →
      ∃ ch ∈ cs, rstrip b <:+: ch := by
  have hhead : b.head? = some c := (fenceRun_decomp b c n hfence).1
  have hcws : isWs c = false := fence_char_not_ws c (fenceRun_decomp b c n hfence).2.1
  obtain ⟨hrne, hrhead⟩ := rstrip_code_block b c hhead hcws
  have hh : ∀ a, (rstrip b).head? = some a → isWs a = false := by
    intro a ha
    rw [hrhead] at ha
    cases ha
    exact hcws
  have hl := rstrip_getLast_not_ws b
  have hrinf : rstrip b <:+: b := (rstrip_isPre b).isInfix
  intro blocks
  induction blocks with
  | nil => intro current cs hmem; cases hmem
  | cons blk rest ih =>
    intro current cs hmem hgo
    simp only [cmGo] at hgo
    cases hmem with
    | head =>
      cases hcur : current.isEmpty with
      | true =>
        rw [hcur] at hgo
        simp only [if_true] at hgo
        rw [if_pos hlen] at hgo
        exact cmGo_keeps limit (rstrip b) hrne hh hl rest b cs hrinf hgo
      | false =>
        rw [hcur] at hgo
        simp only [Bool.false_eq_true, if_false] at hgo
        by_cases hcand : (strip (current ++ ['\n', '\n'] ++ b)).length ≤ limit
        · rw [if_pos hcand] at hgo
          have hinf2 : rstrip b <:+: strip (current ++ ['\n', '\n'] ++ b) := by
            refine infix_strip_of_ends _ _ ?_ hh hl
            obtain ⟨u, v, huv⟩ := hrinf
            have huv2 : u ++ (rstrip b ++ v) = b := by
              simpa [List.append_assoc] using huv
            exact ⟨current ++ ['\n', '\n'] ++ u, v,
              by simp [List.append_assoc, huv2]⟩
          exact cmGo_keeps limit (rstrip b) hrne hh hl rest _ cs hinf2 hgo
        · rw [if_neg hcand, if_pos hlen] at hgo
          obtain ⟨tail, htail, hcs⟩ := Option.map_eq_some'.mp hgo
          subst hcs
          obtain ⟨ch, hchmem, hchinf⟩ :=
            cmGo_keeps limit (rstrip b) hrne hh hl rest b tail hrinf htail
          exact ⟨ch, List.mem_cons_of_mem current hchmem, hchinf⟩
    | tail _ hbrest =>
      cases hcur : current.isEmpty with
      | true =>
        rw [hcur] at hgo
        simp only [if_true] at hgo
        by_cases hfit : blk.length ≤ limit
        · simp only [if_pos hfit] at hgo
          exact ih blk cs hbrest hgo
        · simp only [if_neg hfit] at hgo
          cases hexp : expandOversized limit blk with
          | none => rw [hexp] at hgo; cases hgo
          | some pieces =>
            rw [hexp] at hgo
            cases htail : cmGo limit [] rest with
            | none => rw [htail] at hgo; cases hgo
            | some tail =>
              rw [htail] at hgo
              cases hgo
              obtain ⟨ch, hchmem, hchinf⟩ := ih [] tail hbrest htail
              refine ⟨ch, ?_, hchinf⟩
              simp only [List.nil_append]
              exact List.mem_append_right pieces hchmem
      | false =>
        rw [hcur] at hgo
        simp only [Bool.false_eq_true, if_false] at hgo
        by_cases hcand : (strip (current ++ ['\n', '\n'] ++ blk)).length ≤ limit
        · rw [if_pos hcand] at hgo
          exact ih _ cs hbrest hgo
        · rw [if_neg hcand] at hgo
          by_cases hfit : blk.length ≤ limit
          · rw [if_pos hfit] at hgo
            obtain ⟨tail, htail, hcs⟩ := Option.map_eq_some'.mp hgo
            subst hcs
            obtain ⟨ch, hchmem, hchinf⟩ := ih blk tail hbrest htail
            exact ⟨ch, List.mem_cons_of_mem current hchmem, hchinf⟩
          · rw [if_neg hfit] at hgo
            cases hexp : expandOversized limit blk with
            | none => rw [hexp] at hgo; cases hgo
            | some pieces =>
              rw [hexp] at hgo
              cases htail : cmGo limit [] rest with
              | none => rw [htail] at hgo; cases hgo
              | some tail =>
                rw [htail] at hgo
                cases hgo
                obtain ⟨ch, hchmem, hchinf⟩ := ih [] tail hbrest htail
                refine ⟨ch, ?_, hchinf⟩
                exact List.mem_cons_of_mem current
                  (List.mem_append_right pieces hchmem)

/-- C4 counterexample: at `limit = 5`, the oversized tilde-fenced block
`c4text` is split, the re-wrapped fragment still exceeds the limit, and the
plain-mode fallback emits the chunk `"aaaaa"`, which neither starts nor ends
with a fence character — refuting "every emitted fragment starts and ends
with a fence of the same fence character" for the chunker's output. -/
theorem c4_markdown_fences_counterexample :
    _split_into_blocks c4text = [c4text] ∧
    fenceRun c4text = some ('~', 3) ∧
    5 < c4text.length ∧
    List.replicate 5 'a' ∈ (_chunk_markdown c4text 5).getD [] ∧
    (List.replicate 5 'a').head? ≠ some '~' ∧
    (List.replicate 5 'a').getLast? ≠ some '~' ∧
    (List.replicate 5 'a').head? ≠ some btick ∧
    (List.replicate 5 'a').getLast? ≠ some btick := by
  decide

/-- C4 (amended): structure-aware chunking never splits a fenced code block
that fits the limit — the block (up to trailing whitespace) lands inside a
single emitted chunk; and every fragment produced by the oversized-block
splitter starts and ends with a fence run of the block's own fence
character.  (A re-wrapped fragment that still exceeds the limit is
subsequently hard-cut by the plain-mode fallback, so the final chunks of
such a fragment need not carry fences — see the counterexample.) -/
theorem c4_markdown_code_blocks :
    (∀ (text : List Char) (limit : Nat) (b : List Char) (c : Char) (n : Nat)
       (cs : List (List Char)),
      b ∈ _split_into_blocks text → fenceRun b = some (c, n) →
      b.length ≤ limit → _chunk_markdown text limit = some cs →
      ∃ ch ∈ cs, rstrip b <:+: ch) ∧
    (∀ (block : List Char) (limit : Nat) (c : Char) (n : Nat)
       (frs : List (List Char)),
      fenceRun block = some (c, n) →
      _split_oversized_block block limit = some frs →
      ∀ fr ∈ frs, List.replicate n c <+: fr ∧ List.replicate n c <:+ fr) := by
  constructor
  · intro text limit b c n cs hmem hfence hlen hchunk
    exact cmGo_contains limit b c n hfence hlen (_split_into_blocks text) [] cs
      hmem hchunk
  · intro block limit c n frs hfence hsplit
    exact split_oversized_fence_wrap block limit c n hfence frs hsplit

/-- Witness for C4 (amended): a fitting tilde block survives intact inside
the single chunk of its document, and the (oversized) `c4text` split yields
fragments wrapped in tilde fences. -/
theorem c4_markdown_code_blocks_witness :
    (∃ ch ∈ (["~~~\nx\n~~~\n\nhello".toList] : List (List Char)),
      rstrip "~~~\nx\n~~~".toList <:+: ch) ∧
    (∀ fr ∈ ([c4text] : List (List Char)),
      List.replicate 3 '~' <+: fr ∧ List.replicate 3 '~' <:+ fr) :=
  ⟨c4_markdown_code_blocks.1 "~~~\nx\n~~~\n\nhello".toList 20
      "~~~\nx\n~~~".toList '~' 3 ["~~~\nx\n~~~\n\nhello".toList]
      (by decide) (by decide) (by decide) (by decide),
   c4_markdown_code_blocks.2 c4text 5 '~' 3 [c4text] (by decide) (by decide)⟩

end DigitalBrain
